import Mathlib

set_option maxHeartbeats 800000

/-!
Verification of the batch document-translation orchestrator
(`src/translateDocument.js`, `src/server.js`).

The development shallowly embeds the orchestrator's logic:

* a PDF byte buffer is modelled by `PdfBuffer`: its byte length plus the
  result of parsing it into a page list (`none` when `PDFDocument.load`
  would reject it); a page is an opaque identifier (`Nat`);
* the external translation service is an oracle `Nat → TranslateResponse`
  mapping the index of each issued `translateDocument` call to the
  response the service returns for it;
* the sequential per-segment loop of `translatePdfWithSplittingIfNeeded`
  is embedded as `runSegments`, which also records the trace of
  call/return events (`SegEv`) in the order they happen;
* the bounded batch runner `asyncPool` of `server.js` is embedded as a
  deterministic scheduler parameterised by a completion-priority function
  `prio : Nat → Nat`: whenever the runner suspends (on `Promise.race` or
  the final `Promise.all`), the outstanding task minimising `prio`
  completes next.  Quantifying over `prio` quantifies over completion
  orders.  The scheduler records a trace of `PoolEv` events;
* the combined-text aggregation loop and the archive-mode loop of
  `/api/translate` are embedded directly, with the external OCR /
  translate calls and the `path` / `mime-types` library helpers as
  oracle parameters.

Loops that the source drives by a numeric cursor are embedded with an
explicit fuel argument equal to the iteration count, keeping every
definition structurally recursive (hence kernel-reducible on concrete
inputs).
-/

/-- A PDF byte buffer: its byte length and, when `PDFDocument.load` accepts
it, the sequence of page identifiers it contains (`none` = unparseable). -/
structure PdfBuffer where
  len : Nat
  pages : Option (List Nat)
  deriving DecidableEq, Repr

/-- The `documentTranslation` field of a Cloud Translation response.
`byteStreamOutputs` holds the translated output buffers; an absent
`detectedLanguageCode` is the empty string (JS `|| ''`). -/
structure DocumentTranslation where
  byteStreamOutputs : List PdfBuffer
  mimeType : String
  detectedLanguageCode : String
  deriving DecidableEq, Repr

/-- A `translateDocument` RPC response; `documentTranslation = none` models
a missing/falsy `response.documentTranslation`. -/
structure TranslateResponse where
  documentTranslation : Option DocumentTranslation
  deriving DecidableEq, Repr

/-- The uniform result shape produced by the translator
(`{ outputBuffer, outputMimeType, detectedLanguageCode }`). -/
structure TranslationResult where
  outputBuffer : PdfBuffer
  outputMimeType : String
  detectedLanguageCode : String
  deriving DecidableEq, Repr

/-- Error thrown by `PDFDocument.load` on a malformed document. -/
def loadErrorMsg : String := "Failed to parse PDF document"

/-- Error thrown when a translate response has no byte stream outputs. -/
def emptyResponseMsg : String := "Resposta inesperada: byteStreamOutputs vazio."

/-- One window step of the page-walking loop of `splitPdfIntoChunks`:
`for (let start = 0; start < totalPages; start += size)` materialises the
pages `[start, min(totalPages, start + size))` as one chunk.  The fuel
argument bounds the number of iterations (the source loop terminates
because `size ≥ 1`); it is instantiated with the page count. -/
def chunkPagesGo (size : Nat) : Nat → List Nat → List (List Nat)
  | 0, _ => []
  | _fuel + 1, [] => []
  | fuel + 1, x :: xs =>
    (x :: xs.take (size - 1)) :: chunkPagesGo size fuel (xs.drop (size - 1))

/-- The page windows produced by the loop of `splitPdfIntoChunks` for a
parsed page list. -/
def chunkPages (size : Nat) (l : List Nat) : List (List Nat) :=
  chunkPagesGo size l.length l

/-- `splitPdfIntoChunks(inputBuffer, chunkSize)`: parse the source
(`PDFDocument.load`, failing on a malformed buffer), read
`totalPages`, clamp the window size with
`Math.max(1, Math.floor(chunkSize))` (the integer argument stands for the
already-floored JS number), and walk the pages in fixed-size windows. -/
def splitPdfIntoChunks (inputBuffer : PdfBuffer) (chunkSize : Int) :
    Except String (Nat × List (List Nat)) :=
  match inputBuffer.pages with
  | none => .error loadErrorMsg
  | some pages => .ok (pages.length, chunkPages (max 1 chunkSize).toNat pages)

/-- The `for (const b of buffers)` loop of `mergePdfs`: load each buffer
(failing on a malformed one) and append all of its pages to the output
document being built. -/
def mergePdfsGo : List PdfBuffer → List Nat → Except String (List Nat)
  | [], acc => .ok acc
  | b :: rest, acc =>
    match b.pages with
    | none => .error loadErrorMsg
    | some ps => mergePdfsGo rest (acc ++ ps)

/-- `mergePdfs(buffers)`: concatenate the pages of every input document, in
input order, into one new document (no validation of the input list). -/
def mergePdfs (buffers : List PdfBuffer) : Except String (List Nat) :=
  mergePdfsGo buffers []

/-- A call/return event of one external `translateDocument` call issued for
segment `i`. -/
inductive SegEv where
  | call (i : Nat)
  | ret (i : Nat)
  deriving DecidableEq, Repr

/-- The fully sequential event trace `call 0, ret 0, call 1, ret 1, …`
starting at segment index `i`. -/
def seqTrace (i : Nat) : Nat → List SegEv
  | 0 => []
  | k + 1 => SegEv.call i :: SegEv.ret i :: seqTrace (i + 1) k

/-- The `for (const chunk of chunks)` loop of
`translatePdfWithSplittingIfNeeded`: issue one `translateDocument` call per
segment, await it, validate the response, record the first non-empty
detected language (`detectedLanguageCode || translation.detectedLanguageCode
|| ''`), and push `byteStreamOutputs[0]` onto `outputs`.  Returns the
outputs and detected language (or the thrown error) together with the trace
of the calls actually issued. -/
def runSegments (translate : Nat → TranslateResponse) :
    List PdfBuffer → Nat → String →
    Except String (List PdfBuffer × String) × List SegEv
  | [], _i, detected => (.ok ([], detected), [])
  | _chunk :: rest, i, detected =>
    match (translate i).documentTranslation with
    | none => (.error emptyResponseMsg, [SegEv.call i, SegEv.ret i])
    | some t =>
      match t.byteStreamOutputs with
      | [] => (.error emptyResponseMsg, [SegEv.call i, SegEv.ret i])
      | b :: _ =>
        match runSegments translate rest (i + 1)
            (if detected = "" then t.detectedLanguageCode else detected) with
        | (.error e, tr) => (.error e, SegEv.call i :: SegEv.ret i :: tr)
        | (.ok (outs, d), tr) => (.ok (b :: outs, d), SegEv.call i :: SegEv.ret i :: tr)

/-- `translatePdfWithSplittingIfNeeded`: split first (parsing the PDF), and
if `totalPages <= maxPagesPerRequest` return `null` (no call made);
otherwise translate every chunk sequentially and merge the outputs in the
same order.  The second component is the trace of external calls. -/
def translatePdfWithSplittingIfNeeded (translate : Nat → TranslateResponse)
    (content : PdfBuffer) (maxPagesPerRequest : Int) :
    Except String (Option TranslationResult) × List SegEv :=
  match splitPdfIntoChunks content maxPagesPerRequest with
  | .error e => (.error e, [])
  | .ok (totalPages, chunks) =>
    if (totalPages : Int) ≤ maxPagesPerRequest then (.ok none, [])
    else
      match runSegments translate (chunks.map (fun c => PdfBuffer.mk c.length (some c))) 0 "" with
      | (.error e, tr) => (.error e, tr)
      | (.ok (outs, detected), tr) =>
        match mergePdfs outs with
        | .error e => (.error e, tr)
        | .ok merged =>
          (.ok (some ⟨⟨merged.length, some merged⟩, "application/pdf", detected⟩), tr)

/-- The MIME types accepted by `translateDocumentBuffer`. -/
def SUPPORTED_MIME_TYPES : List String :=
  ["application/pdf",
   "application/vnd.openxmlformats-officedocument.wordprocessingml.document",
   "application/vnd.openxmlformats-officedocument.presentationml.presentation",
   "application/vnd.openxmlformats-officedocument.spreadsheetml.sheet"]

/-- The single direct `translateDocument` call issued for a document that
needs no splitting (the tail of `translateDocumentBuffer`).  It is the
first call made on the client, so it consumes oracle index 0. -/
def directTranslate (translate : Nat → TranslateResponse) (mimeType : String) :
    Except String TranslationResult × List SegEv :=
  match (translate 0).documentTranslation with
  | none => (.error emptyResponseMsg, [SegEv.call 0, SegEv.ret 0])
  | some t =>
    match t.byteStreamOutputs with
    | [] => (.error emptyResponseMsg, [SegEv.call 0, SegEv.ret 0])
    | b :: _ =>
      (.ok ⟨b, if t.mimeType = "" then mimeType else t.mimeType, t.detectedLanguageCode⟩,
       [SegEv.call 0, SegEv.ret 0])

/-- `translateDocumentBuffer`: argument validation, supported-MIME check,
then — for `application/pdf` — the split-if-needed path (which parses the
document before any external call), falling back to one direct call when
the splitter returned `null`.  Uses the source's default
`maxPagesPerRequest = 20`.  The second component is the trace of external
translate calls issued. -/
def translateDocumentBuffer (translate : Nat → TranslateResponse) (content : PdfBuffer)
    (mimeType : String) (projectId : String) (targetLanguageCode : String) :
    Except String TranslationResult × List SegEv :=
  if projectId = "" then (.error "projectId é obrigatório", [])
  else if targetLanguageCode = "" then (.error "targetLanguageCode é obrigatório", [])
  else if mimeType = "" then (.error "mimeType é obrigatório ao traduzir a partir de bytes", [])
  else if content.len = 0 then (.error "content vazio", [])
  else if SUPPORTED_MIME_TYPES.contains mimeType = false then
    (.error ("MIME type não suportado para translateDocument: " ++ mimeType), [])
  else if mimeType = "application/pdf" then
    match translatePdfWithSplittingIfNeeded translate content 20 with
    | (.error e, tr) => (.error e, tr)
    | (.ok (some res), tr) => (.ok res, tr)
    | (.ok none, _tr) => directTranslate translate mimeType
  else directTranslate translate mimeType

/-- First output buffer of a translate response, when the response is
well-formed (`documentTranslation.byteStreamOutputs[0]`). -/
def okFirstOutput (resp : TranslateResponse) : Option PdfBuffer :=
  match resp.documentTranslation with
  | none => none
  | some t => t.byteStreamOutputs.head?

/-- Detected language reported by a translate response (empty string when
absent). -/
def detectedOf (resp : TranslateResponse) : String :=
  match resp.documentTranslation with
  | none => ""
  | some t => t.detectedLanguageCode

/-- The accumulator update `d = d || s || ''` applied across a list of
per-segment detected languages. -/
def detectedFold (det : String) (l : List String) : String :=
  l.foldl (fun a s => if a = "" then s else a) det

/-- First non-empty string of a list, empty string if there is none. -/
def firstNonEmpty (l : List String) : String :=
  (l.find? (fun s => s != "")).getD ""

/-- A scheduling event of the bounded batch runner: task `i` (the unit of
work for item index `i`) is started, or its promise settles. -/
inductive PoolEv where
  | start (i : Nat)
  | finish (i : Nat)
  deriving DecidableEq, Repr

/-- The outstanding task with the smallest completion priority: the next
promise in the `executing` set to settle under the chosen completion
order. -/
def pickMin (prio : Nat → Nat) : List Nat → Option Nat
  | [] => none
  | t :: rest =>
    match pickMin prio rest with
    | none => some t
    | some u => if prio t ≤ prio u then some t else some u

/-- Settle the remaining outstanding promises (the final `Promise.all`
phase of `asyncPool`) in completion-priority order.  The fuel is
instantiated with the number of outstanding tasks. -/
def drainTraceGo (prio : Nat → Nat) : Nat → List Nat → List PoolEv
  | 0, _ => []
  | fuel + 1, os =>
    match pickMin prio os with
    | none => []
    | some t => PoolEv.finish t :: drainTraceGo prio fuel (os.erase t)

/-- Trace of the `Promise.all` phase that settles all still-outstanding
tasks after the admission loop of `asyncPool` has ended. -/
def drainTrace (prio : Nat → Nat) (os : List Nat) : List PoolEv :=
  drainTraceGo prio os.length os

/-- The admission loop of `asyncPool`: each iteration pushes the promise
for the next item onto `ret` and adds it to `executing`; if
`executing.size >= poolLimit` it then awaits `Promise.race(executing)`,
i.e. suspends until the outstanding task with the smallest completion
priority settles (removing it from `executing`).  `fuel` is the number of
items still to admit (`items.length` initially), `k` the index of the next
item, `os` the outstanding task set.  Returns the `ret` list (task ids in
push order) and the event trace. -/
def asyncPoolLoop (limit : Nat) (prio : Nat → Nat) :
    Nat → Nat → List Nat → List Nat × List PoolEv
  | 0, _k, os => ([], drainTrace prio os)
  | fuel + 1, k, os =>
    if limit ≤ (os ++ [k]).length then
      match pickMin prio (os ++ [k]) with
      | some t =>
        (k :: (asyncPoolLoop limit prio fuel (k + 1) ((os ++ [k]).erase t)).1,
         PoolEv.start k :: PoolEv.finish t ::
           (asyncPoolLoop limit prio fuel (k + 1) ((os ++ [k]).erase t)).2)
      | none => ([k], [PoolEv.start k])
    else
      (k :: (asyncPoolLoop limit prio fuel (k + 1) (os ++ [k])).1,
       PoolEv.start k :: (asyncPoolLoop limit prio fuel (k + 1) (os ++ [k])).2)

/-- The `ret` array of `asyncPool`: task ids in the order their promises
were pushed. -/
def asyncPoolRet (limit n : Nat) (prio : Nat → Nat) : List Nat :=
  (asyncPoolLoop limit prio n 0 []).1

/-- The full scheduling trace of one `asyncPool` run. -/
def asyncPoolTrace (limit n : Nat) (prio : Nat → Nat) : List PoolEv :=
  (asyncPoolLoop limit prio n 0 []).2

/-- The value task `i` settles with: `iteratorFn(items[i], i)` (promise
values are fixed by the unit of work, independent of completion order). -/
def taskValue {α β : Type} (items : List α) (f : α → Nat → β) (i : Nat) : Option β :=
  (items[i]?).map (fun a => f a i)

/-- `asyncPool(poolLimit, items, iteratorFn)` under a given completion
order: the result list delivered by `Promise.all(ret)` (each slot in `ret`
order), plus the scheduling trace. -/
def asyncPool {α β : Type} (limit : Nat) (items : List α) (f : α → Nat → β)
    (prio : Nat → Nat) : List (Option β) × List PoolEv :=
  ((asyncPoolRet limit items.length prio).map (taskValue items f),
   asyncPoolTrace limit items.length prio)

/-- `true` iff after every `start` event of the trace the number of
outstanding tasks (starts minus finishes, tracked by `c`) is still at most
`l`: no instant ever has more than `l` units of work in flight. -/
def boundedBy (l : Nat) : Nat → List PoolEv → Bool
  | _c, [] => true
  | c, PoolEv.start _ :: rest => decide (c + 1 ≤ l) && boundedBy l (c + 1) rest
  | c, PoolEv.finish _ :: rest => boundedBy l (c - 1) rest

/-- Head-of-trace test: the next event is a `start`. -/
def isStartHead : List PoolEv → Bool
  | PoolEv.start _ :: _ => true
  | _ => false

/-- `true` iff every `finish` event that happens while queued items remain
(fewer than `n` tasks started so far, tracked by `k`) is immediately
followed by a `start` event: as soon as an invocation completes the next
queued item is admitted. -/
def promptAdmission (n : Nat) : Nat → List PoolEv → Bool
  | _k, [] => true
  | k, PoolEv.start _ :: rest => promptAdmission n (k + 1) rest
  | k, PoolEv.finish _ :: rest =>
    (decide (n ≤ k) || isStartHead rest) && promptAdmission n k rest

/-- `parseSpacingLines`: absent/empty input gives 0, otherwise the numeric
value floored and clamped to `[0, 20]` (the integer argument stands for
the already-floored finite JS number; non-finite input is the `none`
case). -/
def parseSpacingLines (value : Option Int) : Nat :=
  match value with
  | none => 0
  | some n => (max 0 (min 20 n)).toNat

/-- `blockSeparator(title)`: the labelled separator line emitted before
each item's text (`title || 'file'`). -/
def blockSeparator (title : String) : String :=
  "===== " ++ (if title = "" then "file" else title) ++ " =====\n"

/-- `'\n'.repeat(m)`: the run of blank lines inserted between blocks. -/
def blankLines (m : Nat) : String :=
  String.join (List.replicate m "\n")

/-- One per-item block of the combined-text output: its separator title and
its (translated or `[ERRO] …`) text. -/
structure Block where
  title : String
  text : String
  deriving DecidableEq, Repr

/-- The combined-text accumulation loop of `/api/translate`
(`for (let i = 0; i < blocks.length; i += 1)`): append the separator line,
the block text and a newline, and — when this is not the last block and
the spacing is positive — the blank-line run.  `fuel` counts the remaining
iterations (`blocks.length` initially), `i` is the loop cursor. -/
def combineLoop (blocks : List Block) (n : Nat) : Nat → Nat → String → String
  | 0, _i, combined => combined
  | fuel + 1, i, combined =>
    match blocks[i]? with
    | none => combined
    | some b =>
      combineLoop blocks n fuel (i + 1)
        (if i < blocks.length - 1 ∧ 0 < n then
          combined ++ blockSeparator b.title ++ (b.text ++ "\n") ++ blankLines n
         else
          combined ++ blockSeparator b.title ++ (b.text ++ "\n"))

/-- The combined-text body built by `/api/translate` from the per-item
blocks and the parsed spacing count. -/
def combineBlocks (blocks : List Block) (n : Nat) : String :=
  combineLoop blocks n blocks.length 0 ""

/-- The output shape the specification describes for combined-text mode: a
separator line before each item's text, a trailing newline after it,
exactly `m` blank lines between consecutive items and none after the
last. -/
def combinedTextSpec (m : Nat) : List Block → String
  | [] => ""
  | [b] => blockSeparator b.title ++ (b.text ++ "\n")
  | b :: rest => blockSeparator b.title ++ (b.text ++ "\n") ++ blankLines m ++ combinedTextSpec m rest

/-- `mimeType.startsWith('image/')`, expressed over the character
sequence. -/
def isImageMime (mimeType : String) : Bool :=
  "image/".data.isPrefixOf mimeType.data

/-- Payload of one archive entry: a text file or translated bytes. -/
inductive EntryData where
  | text (s : String)
  | bytes (b : List Nat)
  deriving DecidableEq, Repr

/-- One entry appended to the zip archive: its name and payload. -/
structure ArchiveEntry where
  name : String
  data : EntryData
  deriving DecidableEq, Repr

/-- One uploaded multipart file as the archive loop sees it. -/
structure UploadedFile where
  originalname : String
  mimetype : String
  buffer : List Nat
  deriving DecidableEq, Repr

/-- The collaborators of the archive loop: the `mime-types` name lookup,
the `path` basename/extname helpers, the external OCR and translate
capabilities, and the request-level fields it reads. -/
structure ArchiveEnv where
  inferMime : String → String
  basenameOf : String → String
  extnameOf : String → String
  ocr : List Nat → Except String String
  translateText : String → Except String String
  translateDoc : List Nat → String → Except String (List Nat)
  targetLang : String
  reqMimeType : String

/-- `safeBaseName(originalname)`: `'file'` for a missing name, otherwise
`path.basename(originalname, path.extname(originalname))`. -/
def safeBaseName (env : ArchiveEnv) (originalname : String) : String :=
  if originalname = "" then "file" else env.basenameOf originalname

/-- `path.extname(f.originalname || '')`. -/
def extOfName (env : ArchiveEnv) (originalname : String) : String :=
  if originalname = "" then "" else env.extnameOf originalname

/-- The `try` body of one iteration of the archive loop of
`/api/translate`: classify the file by effective MIME, run the
image (OCR → translate-text) or document (translate-document) path, and
produce the one entry this item contributes.  An `error` result is a
thrown exception, caught by the surrounding `catch`. -/
def archiveTryBody (env : ArchiveEnv) (f : UploadedFile) : Except String ArchiveEntry :=
  let effectiveMimeType :=
    if f.mimetype ≠ "" ∧ f.mimetype ≠ "application/octet-stream" then f.mimetype
    else env.inferMime f.originalname
  if isImageMime effectiveMimeType then
    match env.ocr f.buffer with
    | .error e => .error e
    | .ok ocrText =>
      if ocrText.trim = "" then
        .ok ⟨safeBaseName env f.originalname ++ "_error.txt",
             .text "OCR did not detect any text in the image.\n"⟩
      else
        match env.translateText ocrText with
        | .error e => .error e
        | .ok translatedText =>
          .ok ⟨safeBaseName env f.originalname ++ "_" ++ env.targetLang ++ "_translations.txt",
               .text translatedText⟩
  else
    let mimeType := if effectiveMimeType ≠ "" then effectiveMimeType else env.reqMimeType
    if mimeType = "" then
      .ok ⟨safeBaseName env f.originalname ++ "_error.txt",
           .text "Could not determine MIME type.\n"⟩
    else
      match env.translateDoc f.buffer mimeType with
      | .error e => .error e
      | .ok outputBuffer =>
        .ok ⟨safeBaseName env f.originalname ++ "_" ++ env.targetLang ++ "_translations"
               ++ extOfName env f.originalname,
             .bytes outputBuffer⟩

/-- One full iteration of the archive loop, `catch` included: a thrown
error degrades to the item's sibling `<basename>_error.txt` entry. -/
def archiveItemEntry (env : ArchiveEnv) (f : UploadedFile) : ArchiveEntry :=
  match archiveTryBody env f with
  | .ok e => e
  | .error msg => ⟨safeBaseName env f.originalname ++ "_error.txt", .text (msg ++ "\n")⟩

/-- The entries the archive loop appends for a batch, in input order; the
builder never throws, so `respondZip` always finalizes the archive from
exactly these entries. -/
def archiveZipEntries (env : ArchiveEnv) (files : List UploadedFile) : List ArchiveEntry :=
  files.map (archiveItemEntry env)

/-- A concrete three-segment service oracle (detected languages
`"", "en", "en-GB"` in segment order) used to exercise the split path on
small inputs. -/
def segmentedOracle : Nat → TranslateResponse := fun i =>
  ⟨some ⟨[⟨1, some [7 + i]⟩], "application/pdf",
    if i = 0 then "" else if i = 1 then "en" else "en-GB"⟩⟩

/-- Concrete collaborators for exercising the archive loop: OCR reads the
one-byte image `[1]`, text translation succeeds, and the document
translator throws. -/
def archiveOracleEnv : ArchiveEnv :=
  ⟨fun name => if name = "a.png" then "image/png" else "application/pdf",
   fun name => if name = "a.png" then "a" else if name = "b.pdf" then "b" else name,
   fun name => if name = "b.pdf" then ".pdf" else ".png",
   fun b => if b = [1] then .ok "hello" else .error "ocr down",
   fun s => .ok ("T:" ++ s),
   fun _ _ => .error "boom",
   "en", ""⟩

/-- A concrete two-item batch: one image that succeeds, one document whose
translation throws. -/
def archiveBatch : List UploadedFile :=
  [⟨"a.png", "image/png", [1]⟩, ⟨"b.pdf", "application/pdf", [2]⟩]

/-! ### Lemmas about the page-window loop -/

theorem chunkPagesGo_fuel (size : Nat) (fuel₁ fuel₂ : Nat) (l : List Nat)
    (h1 : l.length ≤ fuel₁) (h2 : l.length ≤ fuel₂) :
    chunkPagesGo size fuel₁ l = chunkPagesGo size fuel₂ l := by
  induction fuel₁ generalizing fuel₂ l with
  | zero =>
    have hl : l = [] := List.eq_nil_of_length_eq_zero (Nat.le_zero.mp h1)
    subst hl
    cases fuel₂ <;> rfl
  | succ f ih =>
    cases l with
    | nil => cases fuel₂ <;> rfl
    | cons x xs =>
      cases fuel₂ with
      | zero => simp at h2
      | succ f2 =>
        simp only [chunkPagesGo]
        congr 1
        have hdl : (xs.drop (size - 1)).length ≤ xs.length := by
          simp only [List.length_drop]; omega
        have hx1 : xs.length ≤ f := by simp only [List.length_cons] at h1; omega
        have hx2 : xs.length ≤ f2 := by simp only [List.length_cons] at h2; omega
        exact ih f2 _ (le_trans hdl hx1) (le_trans hdl hx2)

theorem chunkPages_nil (size : Nat) : chunkPages size [] = [] := rfl

theorem chunkPages_cons (size : Nat) (x : Nat) (xs : List Nat) :
    chunkPages size (x :: xs) =
      (x :: xs.take (size - 1)) :: chunkPages size (xs.drop (size - 1)) := by
  simp only [chunkPages, List.length_cons, chunkPagesGo]
  congr 1
  apply chunkPagesGo_fuel
  · simp only [List.length_drop]; omega
  · exact le_refl _

/-- Reassembling the windows in order gives back the original page list. -/
theorem chunkPages_flatten (size : Nat) : ∀ l : List Nat, (chunkPages size l).flatten = l
  | [] => rfl
  | x :: xs => by
    rw [chunkPages_cons, List.flatten_cons, chunkPages_flatten size (xs.drop (size - 1))]
    simp [List.take_append_drop]
termination_by l => l.length
decreasing_by simp only [List.length_drop, List.length_cons]; omega

/-- The window loop makes exactly `⌈P / size⌉` chunks. -/
theorem chunkPages_length (size : Nat) (hs : 1 ≤ size) : ∀ l : List Nat,
    (chunkPages size l).length = (l.length + size - 1) / size
  | [] => by
    simp only [chunkPages_nil, List.length_nil, Nat.zero_add]
    exact (Nat.div_eq_of_lt (by omega)).symm
  | x :: xs => by
    rw [chunkPages_cons]
    have ih := chunkPages_length size hs (xs.drop (size - 1))
    simp only [List.length_cons, ih, List.length_drop]
    by_cases hle : size - 1 ≤ xs.length
    · have h1 : xs.length - (size - 1) + size - 1 = xs.length := by omega
      have h2 : xs.length + 1 + size - 1 = xs.length + size := by omega
      rw [h1, h2, Nat.add_div_right _ (by omega : 0 < size)]
    · have h1 : xs.length - (size - 1) + size - 1 = size - 1 := by omega
      have h2 : xs.length + 1 + size - 1 = xs.length + size := by omega
      rw [h1, h2, Nat.add_div_right _ (by omega : 0 < size)]
      rw [Nat.div_eq_of_lt (by omega : size - 1 < size),
          Nat.div_eq_of_lt (by omega : xs.length < size)]
termination_by l => l.length
decreasing_by simp only [List.length_drop, List.length_cons]; omega

theorem chunkPages_ne_nil (size : Nat) (l : List Nat) (h : l ≠ []) :
    chunkPages size l ≠ [] := by
  cases l with
  | nil => exact absurd rfl h
  | cons x xs => rw [chunkPages_cons]; exact List.cons_ne_nil _ _

/-- Every window except the last holds exactly `size` pages. -/
theorem chunkPages_dropLast_sizes (size : Nat) (hs : 1 ≤ size) :
    ∀ l : List Nat, ∀ c ∈ (chunkPages size l).dropLast, c.length = size
  | [] => by intro c hc; simp [chunkPages_nil] at hc
  | x :: xs => by
    intro c hc
    rw [chunkPages_cons] at hc
    by_cases hd : xs.drop (size - 1) = []
    · rw [hd, chunkPages_nil] at hc
      simp at hc
    · have hne := chunkPages_ne_nil size _ hd
      obtain ⟨r, rs, hr⟩ := List.exists_cons_of_ne_nil hne
      rw [hr, List.dropLast_cons₂] at hc
      have hxgt : size - 1 < xs.length := by
        rcases Nat.lt_or_ge (size - 1) xs.length with h | h
        · exact h
        · exact absurd (List.drop_eq_nil_iff.mpr h) hd
      rcases List.mem_cons.mp hc with rfl | hc'
      · simp only [List.length_cons, List.length_take]
        omega
      · have ih := chunkPages_dropLast_sizes size hs (xs.drop (size - 1))
        exact ih c (by rw [hr]; exact hc')
termination_by l => l.length
decreasing_by simp only [List.length_drop, List.length_cons]; omega

/-- The last window holds `P % size` pages (`size` when `P % size = 0`). -/
theorem chunkPages_getLast_size (size : Nat) (hs : 1 ≤ size) :
    ∀ l : List Nat, l ≠ [] →
      ∀ c, (chunkPages size l).getLast? = some c →
        c.length = if l.length % size = 0 then size else l.length % size
  | [], h => absurd rfl h
  | x :: xs, _ => by
    intro c hc
    rw [chunkPages_cons] at hc
    by_cases hd : xs.drop (size - 1) = []
    · rw [hd, chunkPages_nil, List.getLast?_singleton] at hc
      have hxle : xs.length ≤ size - 1 := List.drop_eq_nil_iff.mp hd
      obtain rfl : x :: xs.take (size - 1) = c := Option.some.inj hc
      simp only [List.length_cons, List.length_take]
      by_cases heq : xs.length + 1 = size
      · have hm : min (size - 1) xs.length = xs.length := by omega
        rw [hm, heq, Nat.mod_self, if_pos rfl]
      · have hm : min (size - 1) xs.length = xs.length := by omega
        rw [hm, Nat.mod_eq_of_lt (by omega : xs.length + 1 < size), if_neg (by omega)]
    · have hne := chunkPages_ne_nil size _ hd
      obtain ⟨r, rs, hr⟩ := List.exists_cons_of_ne_nil hne
      rw [hr, List.getLast?_cons_cons] at hc
      have hxgt : size - 1 < xs.length := by
        rcases Nat.lt_or_ge (size - 1) xs.length with h | h
        · exact h
        · exact absurd (List.drop_eq_nil_iff.mpr h) hd
      have ih := chunkPages_getLast_size size hs (xs.drop (size - 1)) hd c (hr ▸ hc)
      rw [List.length_drop] at ih
      have hmod : (xs.length - (size - 1)) % size = (xs.length + 1) % size := by
        have h1 : xs.length - (size - 1) + size = xs.length + 1 := by omega
        calc (xs.length - (size - 1)) % size
            = (xs.length - (size - 1) + size) % size := (Nat.add_mod_right _ _).symm
          _ = (xs.length + 1) % size := by rw [h1]
      rw [hmod] at ih
      simpa using ih
termination_by l => l.length
decreasing_by simp only [List.length_drop, List.length_cons]; omega

/-! ### Lemmas about merging -/

/-- Merging buffers that all parse is concatenation of their page lists. -/
theorem mergePdfsGo_map_some : ∀ (l : List (List Nat)) (acc : List Nat),
    mergePdfsGo (l.map (fun c => PdfBuffer.mk c.length (some c))) acc = .ok (acc ++ l.flatten)
  | [], acc => by simp [mergePdfsGo]
  | c :: rest, acc => by
    simp only [List.map_cons, mergePdfsGo]
    rw [mergePdfsGo_map_some rest (acc ++ c)]
    simp [List.flatten_cons, List.append_assoc]

/-! ### Claims about the splitter and merger -/

/-- C1: for every parseable PDF and every segment size `S ≥ 1`, splitting
with `splitPdfIntoChunks` and merging the resulting chunks with
`mergePdfs` (no translation in between) returns exactly the original page
sequence, and the reported total page count is the original count. -/
theorem claim1_split_merge_roundtrip (n : Nat) (pages : List Nat) (S : Int) (hS : 1 ≤ S)
    (tp : Nat) (cs : List (List Nat))
    (h : splitPdfIntoChunks ⟨n, some pages⟩ S = .ok (tp, cs)) :
    mergePdfs (cs.map (fun c => PdfBuffer.mk c.length (some c))) = .ok pages ∧
    tp = pages.length := by
  have h' : pages.length = tp ∧ chunkPages (max 1 S).toNat pages = cs := by
    simpa [splitPdfIntoChunks] using h
  obtain ⟨h1, h2⟩ := h'
  subst h1 h2
  refine ⟨?_, rfl⟩
  unfold mergePdfs
  rw [mergePdfsGo_map_some]
  simp [chunkPages_flatten]

theorem claim1_witness :
    mergePdfs ([[0, 1], [2]].map (fun c => PdfBuffer.mk c.length (some c))) = .ok [0, 1, 2] ∧
    (3 : Nat) = [0, 1, 2].length :=
  claim1_split_merge_roundtrip 3 [0, 1, 2] 2 (by decide) 3 [[0, 1], [2]] rfl

/-- C2: for a parseable PDF with `P` pages and a clamped segment size
`S < P`, `splitPdfIntoChunks` reports `totalPages = P` and produces
`⌈P / S⌉` windows walking the pages in order; every window but the last
has exactly `S` pages, and the last has `P % S` pages (`S` when
`P % S = 0`). -/
theorem claim2_splitter_segment_shape (n : Nat) (pages : List Nat) (S : Int)
    (hover : (max 1 S).toNat < pages.length)
    (tp : Nat) (cs : List (List Nat))
    (h : splitPdfIntoChunks ⟨n, some pages⟩ S = .ok (tp, cs)) :
    tp = pages.length ∧
    cs.length = (pages.length + (max 1 S).toNat - 1) / (max 1 S).toNat ∧
    cs.flatten = pages ∧
    (∀ c ∈ cs.dropLast, c.length = (max 1 S).toNat) ∧
    (∀ c, cs.getLast? = some c →
      c.length = if pages.length % (max 1 S).toNat = 0 then (max 1 S).toNat
                 else pages.length % (max 1 S).toNat) := by
  have hs : 1 ≤ (max 1 S).toNat := by
    have h1 : (1 : Int) ≤ max 1 S := le_max_left 1 S
    omega
  have h' : pages.length = tp ∧ chunkPages (max 1 S).toNat pages = cs := by
    simpa [splitPdfIntoChunks] using h
  obtain ⟨h1, h2⟩ := h'
  subst h1 h2
  exact ⟨rfl, chunkPages_length _ hs pages, chunkPages_flatten _ pages,
         chunkPages_dropLast_sizes _ hs pages,
         chunkPages_getLast_size _ hs pages (List.ne_nil_of_length_pos (by omega))⟩

theorem claim2_witness :
    (5 : Nat) = [0, 1, 2, 3, 4].length ∧
    [[0, 1], [2, 3], [4]].length =
      ([0, 1, 2, 3, 4].length + (max 1 (2 : Int)).toNat - 1) / (max 1 (2 : Int)).toNat ∧
    [[0, 1], [2, 3], [4]].flatten = [0, 1, 2, 3, 4] ∧
    (∀ c ∈ [[0, 1], [2, 3], [4]].dropLast, c.length = (max 1 (2 : Int)).toNat) ∧
    (∀ c, [[0, 1], [2, 3], [4]].getLast? = some c →
      c.length = if [0, 1, 2, 3, 4].length % (max 1 (2 : Int)).toNat = 0
                 then (max 1 (2 : Int)).toNat
                 else [0, 1, 2, 3, 4].length % (max 1 (2 : Int)).toNat) :=
  claim2_splitter_segment_shape 5 [0, 1, 2, 3, 4] 2 (by decide) 5 [[0, 1], [2, 3], [4]] rfl

/-- C9, counterexample: `mergePdfs` called with an empty input list does
not fail — there is no `InvalidArgument` validation; it succeeds and
returns an empty (zero-page) document. -/
theorem claim9_counterexample : mergePdfs [] = .ok ([] : List Nat) := rfl

/-- C9, amended: `mergePdfs` performs no validation of its input list — on
an empty list it succeeds, returning an empty zero-page document; the
design nevertheless never hands it zero documents, because its only call
site passes one output per segment and splitting an oversized document
(page count above a non-negative ceiling) always yields at least one
segment. -/
theorem claim9_amended :
    mergePdfs [] = .ok ([] : List Nat) ∧
    ∀ (pages : List Nat) (m : Int), 0 ≤ m → (m < (pages.length : Int)) →
      chunkPages (max 1 m).toNat pages ≠ [] := by
  refine ⟨rfl, ?_⟩
  intro pages m h0 hm
  exact chunkPages_ne_nil _ _ (List.ne_nil_of_length_pos (by omega))

theorem claim9_witness : chunkPages (max 1 (0 : Int)).toNat [0] ≠ [] :=
  claim9_amended.2 [0] 0 (by decide) (by decide)

/-- C10: for an `application/pdf` input that the PDF library cannot parse,
`translateDocumentBuffer` (with its validations satisfied) fails with the
parse error and issues no external translate call at all, whatever the
byte size — the split helper parses the document before any call is
made. -/
theorem claim10_parse_before_translate (translate : Nat → TranslateResponse)
    (n : Nat) (projectId targetLanguageCode : String)
    (hp : projectId ≠ "") (ht : targetLanguageCode ≠ "") (hn : n ≠ 0) :
    translateDocumentBuffer translate ⟨n, none⟩ "application/pdf" projectId targetLanguageCode
      = (.error loadErrorMsg, []) := by
  unfold translateDocumentBuffer
  rw [if_neg hp, if_neg ht, if_neg (by decide : ¬("application/pdf" = "")), if_neg hn,
      if_neg (by decide : ¬(SUPPORTED_MIME_TYPES.contains "application/pdf" = false)),
      if_pos rfl]
  simp [translatePdfWithSplittingIfNeeded, splitPdfIntoChunks]

theorem claim10_witness :
    translateDocumentBuffer (fun _ => ⟨none⟩) ⟨5, none⟩ "application/pdf" "p" "en"
      = (.error loadErrorMsg, []) :=
  claim10_parse_before_translate (fun _ => ⟨none⟩) 5 "p" "en" (by decide) (by decide)
    (by decide)

/-! ### The sequential segment loop -/

/-- A successful run of the segment loop visits the segments strictly in
order — its trace is the fully sequential `call 0, ret 0, call 1, …` —
collects exactly the first output buffer of each response in segment
order, and folds the detected languages left to right. -/
theorem runSegments_ok (translate : Nat → TranslateResponse) :
    ∀ (chunks : List PdfBuffer) (i : Nat) (det : String) (outs : List PdfBuffer)
      (d : String) (tr : List SegEv),
      runSegments translate chunks i det = (.ok (outs, d), tr) →
      tr = seqTrace i chunks.length ∧
      outs.map some =
        (List.range' i chunks.length).map (fun j => okFirstOutput (translate j)) ∧
      d = detectedFold det ((List.range' i chunks.length).map (fun j => detectedOf (translate j)))
  | [], i, det, outs, d, tr => by
    intro h
    simp only [runSegments, Prod.mk.injEq, Except.ok.injEq] at h
    obtain ⟨⟨ho, hd⟩, htr⟩ := h
    subst ho hd htr
    simp [seqTrace, detectedFold]
  | chunk :: rest, i, det, outs, d, tr => by
    intro h
    simp only [runSegments] at h
    cases hdoc : (translate i).documentTranslation with
    | none => simp only [hdoc] at h; simp at h
    | some t =>
      cases hbs : t.byteStreamOutputs with
      | nil => simp only [hdoc, hbs] at h; simp at h
      | cons b bs =>
        cases hrec : runSegments translate rest (i + 1)
            (if det = "" then t.detectedLanguageCode else det) with
        | mk r tr' =>
          cases r with
          | error e => simp only [hdoc, hbs, hrec] at h; simp at h
          | ok od =>
            obtain ⟨outs', d'⟩ := od
            simp only [hdoc, hbs, hrec] at h
            simp only [Prod.mk.injEq, Except.ok.injEq] at h
            obtain ⟨⟨ho, hd⟩, htr⟩ := h
            subst ho hd htr
            obtain ⟨htr', houts, hdet⟩ := runSegments_ok translate rest (i + 1) _ outs' d' tr' hrec
            refine ⟨?_, ?_, ?_⟩
            · simp only [List.length_cons, seqTrace, htr']
            · simp only [List.length_cons, List.range'_succ, List.map_cons, List.map_cons, houts]
              congr 1
              simp [okFirstOutput, hdoc, hbs]
            · simp only [List.length_cons, List.range'_succ, List.map_cons, detectedFold,
                List.foldl_cons, hdet]
              congr 1
              simp [detectedOf, hdoc]

/-- In the sequential trace, the events of segment `j` sit at positions
`2j` and `2j + 1`. -/
theorem seqTrace_getElem : ∀ (k i j : Nat), j < k →
    (seqTrace i k)[2 * j]? = some (SegEv.call (i + j)) ∧
    (seqTrace i k)[2 * j + 1]? = some (SegEv.ret (i + j))
  | 0, _, j, hj => absurd hj (by omega)
  | k + 1, i, 0, _ => by simp [seqTrace]
  | k + 1, i, j + 1, hj => by
    have ih := seqTrace_getElem k (i + 1) j (by omega)
    have h2 : 2 * (j + 1) = 2 * j + 1 + 1 := by omega
    have h3 : 2 * (j + 1) + 1 = (2 * j + 1 + 1) + 1 := by omega
    have h4 : i + 1 + j = i + (j + 1) := by omega
    constructor
    · rw [h2]
      simp only [seqTrace, List.getElem?_cons_succ]
      rw [← h4]
      exact ih.1
    · rw [h3]
      simp only [seqTrace, List.getElem?_cons_succ]
      rw [← h4]
      exact ih.2

theorem detectedFold_cons (det s : String) (l : List String) :
    detectedFold det (s :: l) = detectedFold (if det = "" then s else det) l := rfl

theorem detectedFold_of_ne (det : String) (hd : det ≠ "") :
    ∀ l : List String, detectedFold det l = det
  | [] => rfl
  | s :: l => by
    rw [detectedFold_cons, if_neg hd]
    exact detectedFold_of_ne det hd l

/-- The left fold of `d = d || s || ''` starting from the empty string
computes the first non-empty element. -/
theorem detectedFold_empty : ∀ l : List String, detectedFold "" l = firstNonEmpty l
  | [] => rfl
  | s :: l => by
    rw [detectedFold_cons, if_pos rfl]
    by_cases hs : s = ""
    · subst hs
      rw [detectedFold_empty l]
      have hf : List.find? (fun x => x != "") ("" :: l) = List.find? (fun x => x != "") l :=
        List.find?_cons_of_neg _ (by decide)
      unfold firstNonEmpty
      rw [hf]
    · rw [detectedFold_of_ne s hs l]
      have hf : List.find? (fun x => x != "") (s :: l) = some s :=
        List.find?_cons_of_pos _ (bne_iff_ne.mpr hs)
      unfold firstNonEmpty
      rw [hf]
      rfl

/-- A successful oversized-path run of `translatePdfWithSplittingIfNeeded`
decomposed: the chunk count fixes the evs, the collected outputs, the
merged result, and the folded detected language. -/
theorem translatePdf_ok (translate : Nat → TranslateResponse) (n : Nat) (pages : List Nat)
    (m : Int) (res : TranslationResult) (evs : List SegEv)
    (h : translatePdfWithSplittingIfNeeded translate ⟨n, some pages⟩ m = (.ok (some res), evs)) :
    ∃ outs merged,
      evs = seqTrace 0 (chunkPages (max 1 m).toNat pages).length ∧
      outs.map some = (List.range' 0 (chunkPages (max 1 m).toNat pages).length).map
        (fun j => okFirstOutput (translate j)) ∧
      mergePdfs outs = .ok merged ∧
      res = ⟨⟨merged.length, some merged⟩, "application/pdf",
             detectedFold "" ((List.range' 0 (chunkPages (max 1 m).toNat pages).length).map
               (fun j => detectedOf (translate j)))⟩ := by
  simp only [translatePdfWithSplittingIfNeeded, splitPdfIntoChunks] at h
  by_cases hle : ((pages.length : Int) ≤ m)
  · rw [if_pos hle] at h; simp at h
  · rw [if_neg hle] at h
    cases hrec : runSegments translate
        ((chunkPages (max 1 m).toNat pages).map (fun c => PdfBuffer.mk c.length (some c)))
        0 "" with
    | mk r tr' =>
      cases r with
      | error e => simp only [hrec] at h; simp at h
      | ok od =>
        obtain ⟨outs, detected⟩ := od
        cases hmg : mergePdfs outs with
        | error e => simp only [hrec, hmg] at h; simp at h
        | ok merged =>
          simp only [hrec, hmg] at h
          simp only [Prod.mk.injEq, Except.ok.injEq, Option.some.injEq] at h
          obtain ⟨hres, htr⟩ := h
          obtain ⟨htr', houts, hdet⟩ := runSegments_ok translate _ 0 "" outs detected tr' hrec
          rw [List.length_map] at htr' houts hdet
          refine ⟨outs, merged, ?_, houts, hmg, ?_⟩
          · rw [← htr, htr']
          · rw [← hres, hdet]

/-- C3: for an oversized PDF, `translatePdfWithSplittingIfNeeded` issues
the per-segment translate calls strictly sequentially in ascending segment
order — the evs is `call 0, ret 0, call 1, ret 1, …`, so segment `i`'s
return (position `2i + 1`) precedes segment `i + 1`'s call (position
`2i + 2`) — and merges the per-segment outputs in that same ascending
order. -/
theorem claim3_sequential_segment_calls (translate : Nat → TranslateResponse) (n : Nat)
    (pages : List Nat) (m : Int) (res : TranslationResult) (evs : List SegEv)
    (h : translatePdfWithSplittingIfNeeded translate ⟨n, some pages⟩ m = (.ok (some res), evs)) :
    evs = seqTrace 0 (chunkPages (max 1 m).toNat pages).length ∧
    (∀ i, i + 1 < (chunkPages (max 1 m).toNat pages).length →
      evs[2 * i + 1]? = some (SegEv.ret i) ∧
      evs[2 * i + 2]? = some (SegEv.call (i + 1))) ∧
    (∃ outs merged,
      outs.map some = (List.range (chunkPages (max 1 m).toNat pages).length).map
        (fun j => okFirstOutput (translate j)) ∧
      mergePdfs outs = .ok merged ∧
      res.outputBuffer = ⟨merged.length, some merged⟩) := by
  obtain ⟨outs, merged, htr, houts, hmg, hres⟩ := translatePdf_ok translate n pages m res evs h
  refine ⟨htr, ?_, outs, merged, ?_, hmg, ?_⟩
  · intro i hi
    subst htr
    constructor
    · simpa using (seqTrace_getElem (chunkPages (max 1 m).toNat pages).length 0 i (by omega)).2
    · have := (seqTrace_getElem (chunkPages (max 1 m).toNat pages).length 0 (i + 1)
        (by omega)).1
      have h2 : 2 * (i + 1) = 2 * i + 2 := by omega
      rw [h2] at this
      simpa using this
  · rw [List.range_eq_range']
    exact houts
  · rw [hres]

theorem claim3_witness :
    ([SegEv.call 0, SegEv.ret 0, SegEv.call 1, SegEv.ret 1, SegEv.call 2, SegEv.ret 2] :
        List SegEv)
      = seqTrace 0 (chunkPages (max 1 (1 : Int)).toNat [0, 1, 2]).length :=
  (claim3_sequential_segment_calls segmentedOracle 3 [0, 1, 2] 1
    ⟨⟨3, some [7, 8, 9]⟩, "application/pdf", "en"⟩
    [SegEv.call 0, SegEv.ret 0, SegEv.call 1, SegEv.ret 1, SegEv.call 2, SegEv.ret 2] rfl).1

/-- C4: the detected language of the final split-path result is the first
non-empty per-segment detection in ascending segment order (empty string
when none is non-empty); later non-empty detections are ignored.  The
witness runs segments reporting `"", "en", "en-GB"` and obtains `"en"`. -/
theorem claim4_first_nonempty_detected (translate : Nat → TranslateResponse) (n : Nat)
    (pages : List Nat) (m : Int) (res : TranslationResult) (evs : List SegEv)
    (h : translatePdfWithSplittingIfNeeded translate ⟨n, some pages⟩ m = (.ok (some res), evs)) :
    res.detectedLanguageCode =
      firstNonEmpty ((List.range (chunkPages (max 1 m).toNat pages).length).map
        (fun j => detectedOf (translate j))) := by
  obtain ⟨outs, merged, htr, houts, hmg, hres⟩ := translatePdf_ok translate n pages m res evs h
  rw [hres]
  simp only [List.range_eq_range']
  exact detectedFold_empty _

theorem claim4_witness :
    TranslationResult.detectedLanguageCode ⟨⟨3, some [7, 8, 9]⟩, "application/pdf", "en"⟩
      = firstNonEmpty ((List.range (chunkPages (max 1 (1 : Int)).toNat [0, 1, 2]).length).map
          (fun j => detectedOf (segmentedOracle j))) :=
  claim4_first_nonempty_detected segmentedOracle 3 [0, 1, 2] 1
    ⟨⟨3, some [7, 8, 9]⟩, "application/pdf", "en"⟩
    [SegEv.call 0, SegEv.ret 0, SegEv.call 1, SegEv.ret 1, SegEv.call 2, SegEv.ret 2] rfl

/-! ### The bounded batch runner -/

theorem pickMin_isSome (prio : Nat → Nat) :
    ∀ l : List Nat, l ≠ [] → (pickMin prio l).isSome
  | [], h => absurd rfl h
  | t :: rest, _ => by
    simp only [pickMin]
    cases hp : pickMin prio rest with
    | none => simp
    | some u => by_cases h : prio t ≤ prio u <;> simp [h]

theorem pickMin_mem (prio : Nat → Nat) :
    ∀ (l : List Nat) (t : Nat), pickMin prio l = some t → t ∈ l
  | [], t, h => by simp [pickMin] at h
  | a :: rest, t, h => by
    simp only [pickMin] at h
    cases hp : pickMin prio rest with
    | none =>
      simp only [hp] at h
      obtain rfl := Option.some.inj h
      exact List.mem_cons_self _ _
    | some u =>
      simp only [hp] at h
      by_cases hle : prio a ≤ prio u
      · rw [if_pos hle] at h
        obtain rfl := Option.some.inj h
        exact List.mem_cons_self _ _
      · rw [if_neg hle] at h
        obtain rfl := Option.some.inj h
        exact List.mem_cons_of_mem _ (pickMin_mem prio rest _ hp)

/-- The drain phase only settles promises, so it never raises the
outstanding count above any bound. -/
theorem boundedBy_drainGo (prio : Nat → Nat) (lim : Nat) :
    ∀ (fuel : Nat) (os : List Nat) (c : Nat),
      boundedBy lim c (drainTraceGo prio fuel os) = true
  | 0, _os, _c => rfl
  | fuel + 1, os, c => by
    simp only [drainTraceGo]
    cases hp : pickMin prio os with
    | none => rfl
    | some t =>
      simp only [boundedBy]
      exact boundedBy_drainGo prio lim fuel _ _

/-- Once every item has been admitted (`n ≤ k`), the finish-only drain
phase satisfies the prompt-admission property vacuously. -/
theorem prompt_drainGo (prio : Nat → Nat) (n : Nat) :
    ∀ (fuel : Nat) (os : List Nat) (k : Nat), n ≤ k →
      promptAdmission n k (drainTraceGo prio fuel os) = true
  | 0, _os, _k, _h => rfl
  | fuel + 1, os, k, h => by
    simp only [drainTraceGo]
    cases hp : pickMin prio os with
    | none => rfl
    | some t =>
      simp only [promptAdmission, decide_eq_true h, Bool.true_or, Bool.true_and]
      exact prompt_drainGo prio n fuel _ k h

/-- The `ret` array collects exactly the item indices, in input order,
whatever the limit and the completion order. -/
theorem asyncPoolLoop_ret (limit : Nat) (prio : Nat → Nat) :
    ∀ (fuel k : Nat) (os : List Nat),
      (asyncPoolLoop limit prio fuel k os).1 = List.range' k fuel
  | 0, _k, _os => rfl
  | fuel + 1, k, os => by
    simp only [asyncPoolLoop]
    by_cases hl : limit ≤ (os ++ [k]).length
    · rw [if_pos hl]
      cases hp : pickMin prio (os ++ [k]) with
      | none => exact absurd (pickMin_isSome prio (os ++ [k]) (by simp)) (by rw [hp]; simp)
      | some t =>
        rw [List.range'_succ]
        simp only [List.cons.injEq, true_and]
        exact asyncPoolLoop_ret limit prio fuel (k + 1) _
    · rw [if_neg hl]
      rw [List.range'_succ]
      simp only [List.cons.injEq, true_and]
      exact asyncPoolLoop_ret limit prio fuel (k + 1) _

/-- The admission loop always begins by starting the next item. -/
theorem asyncPoolLoop_head (limit : Nat) (prio : Nat → Nat) (fuel k : Nat) (os : List Nat) :
    isStartHead (asyncPoolLoop limit prio (fuel + 1) k os).2 = true := by
  simp only [asyncPoolLoop]
  by_cases hl : limit ≤ (os ++ [k]).length
  · rw [if_pos hl]
    cases hp : pickMin prio (os ++ [k]) with
    | none => rfl
    | some t => rfl
  · rw [if_neg hl]
    rfl

/-- Invariant: entering the loop with fewer than `limit` tasks outstanding,
the outstanding count never exceeds `limit` at any instant. -/
theorem asyncPoolLoop_bounded (limit : Nat) (prio : Nat → Nat) :
    ∀ (fuel k : Nat) (os : List Nat), os.length < limit →
      boundedBy limit os.length (asyncPoolLoop limit prio fuel k os).2 = true
  | 0, _k, os, _h => by
    simp only [asyncPoolLoop, drainTrace]
    exact boundedBy_drainGo prio limit os.length os os.length
  | fuel + 1, k, os, h => by
    simp only [asyncPoolLoop]
    by_cases hl : limit ≤ (os ++ [k]).length
    · rw [if_pos hl]
      cases hp : pickMin prio (os ++ [k]) with
      | none => exact absurd (pickMin_isSome prio (os ++ [k]) (by simp)) (by rw [hp]; simp)
      | some t =>
        simp only [boundedBy]
        rw [decide_eq_true (by omega : os.length + 1 ≤ limit)]
        simp only [Bool.true_and]
        have hmem := pickMin_mem prio _ t hp
        have hel : ((os ++ [k]).erase t).length = os.length := by
          rw [List.length_erase_of_mem hmem]
          simp
        have h2 := asyncPoolLoop_bounded limit prio fuel (k + 1) ((os ++ [k]).erase t)
          (by rw [hel]; exact h)
        rw [hel] at h2
        simpa using h2
    · rw [if_neg hl]
      simp only [List.length_append, List.length_singleton] at hl
      simp only [boundedBy]
      rw [decide_eq_true (by omega : os.length + 1 ≤ limit)]
      simp only [Bool.true_and]
      have h2 := asyncPoolLoop_bounded limit prio fuel (k + 1) (os ++ [k])
        (by simp only [List.length_append, List.length_singleton]; omega)
      simpa using h2

/-- Invariant: every completion that happens while items remain queued is
immediately followed by the admission of the next item. -/
theorem asyncPoolLoop_prompt (limit : Nat) (prio : Nat → Nat) :
    ∀ (fuel k : Nat) (os : List Nat),
      promptAdmission (k + fuel) k (asyncPoolLoop limit prio fuel k os).2 = true
  | 0, k, os => by
    simp only [asyncPoolLoop, drainTrace]
    exact prompt_drainGo prio (k + 0) os.length os k (by omega)
  | fuel + 1, k, os => by
    simp only [asyncPoolLoop]
    by_cases hl : limit ≤ (os ++ [k]).length
    · rw [if_pos hl]
      cases hp : pickMin prio (os ++ [k]) with
      | none => exact absurd (pickMin_isSome prio (os ++ [k]) (by simp)) (by rw [hp]; simp)
      | some t =>
        simp only [promptAdmission]
        have hn : k + (fuel + 1) = (k + 1) + fuel := by omega
        rw [hn]
        cases fuel with
        | zero =>
          rw [decide_eq_true (by omega : (k + 1) + 0 ≤ k + 1)]
          simp only [Bool.true_or, Bool.true_and]
          exact asyncPoolLoop_prompt limit prio 0 (k + 1) _
        | succ f =>
          rw [asyncPoolLoop_head limit prio f (k + 1) _]
          simp only [Bool.or_true, Bool.true_and]
          exact asyncPoolLoop_prompt limit prio (f + 1) (k + 1) _
    · rw [if_neg hl]
      simp only [promptAdmission]
      have hn : k + (fuel + 1) = (k + 1) + fuel := by omega
      rw [hn]
      exact asyncPoolLoop_prompt limit prio fuel (k + 1) _

/-- C5: for every item list, every concurrency limit and every completion
order, `asyncPool` returns one slot per item, and the `i`-th slot holds
the value of the unit of work applied to `items[i]` — results preserve
input order irrespective of completion order. -/
theorem claim5_pool_preserves_order {α β : Type} (limit : Nat) (items : List α)
    (f : α → Nat → β) (prio : Nat → Nat) :
    (asyncPool limit items f prio).1.length = items.length ∧
    ∀ i (h : i < items.length),
      (asyncPool limit items f prio).1[i]? = some (some (f items[i] i)) := by
  have hret : asyncPoolRet limit items.length prio = List.range' 0 items.length :=
    asyncPoolLoop_ret limit prio items.length 0 []
  constructor
  · simp [asyncPool, hret]
  · intro i h
    simp only [asyncPool, asyncPoolRet] at *
    rw [hret, List.getElem?_map,
        List.getElem?_eq_getElem (by simpa using h), List.getElem_range']
    simp [taskValue, List.getElem?_eq_getElem h]

theorem claim5_witness :
    (asyncPool 2 ["a", "b", "c"] (fun s i => (s, i)) id).1[1]? = some (some ("b", 1)) := by
  have := (claim5_pool_preserves_order 2 ["a", "b", "c"] (fun s i => (s, i)) id).2 1
    (by decide)
  simpa using this

/-- C6: for every item list and every concurrency limit `L ≥ 1`, under
every completion order, `asyncPool` never has more than `L` invocations
outstanding at any instant, and as soon as an outstanding invocation
completes the next queued item (if any) is admitted. -/
theorem claim6_pool_bounded {α β : Type} (limit : Nat) (items : List α) (f : α → Nat → β)
    (prio : Nat → Nat) (hl : 1 ≤ limit) :
    boundedBy limit 0 (asyncPool limit items f prio).2 = true ∧
    promptAdmission items.length 0 (asyncPool limit items f prio).2 = true := by
  constructor
  · have h2 := asyncPoolLoop_bounded limit prio items.length 0 []
      (by simpa using hl)
    simpa [asyncPool, asyncPoolTrace] using h2
  · have h2 := asyncPoolLoop_prompt limit prio items.length 0 []
    simpa [asyncPool, asyncPoolTrace] using h2

theorem claim6_witness :
    boundedBy 2 0 (asyncPool 2 ["a", "b", "c"] (fun s i => (s, i)) (fun t => t)).2 = true ∧
    promptAdmission (["a", "b", "c"] : List String).length 0
      (asyncPool 2 ["a", "b", "c"] (fun s i => (s, i)) (fun t => t)).2 = true :=
  claim6_pool_bounded 2 ["a", "b", "c"] (fun s i => (s, i)) (fun t => t) (by decide)

/-! ### Combined-text aggregation -/

/-- The indexed accumulation loop, started at cursor `i` with `fuel`
iterations left, appends exactly the spec-shaped rendering of the
remaining blocks. -/
theorem combineLoop_spec (blocks : List Block) (n : Nat) :
    ∀ (fuel i : Nat) (acc : String), i + fuel = blocks.length →
      combineLoop blocks n fuel i acc = acc ++ combinedTextSpec n (blocks.drop i)
  | 0, i, acc, h => by
    have hd : blocks.drop i = [] := List.drop_eq_nil_iff.mpr (by omega)
    rw [hd]
    simp [combineLoop, combinedTextSpec]
  | fuel + 1, i, acc, h => by
    have hi : i < blocks.length := by omega
    have hb : blocks[i]? = some blocks[i] := List.getElem?_eq_getElem hi
    have hdrop : blocks.drop i = blocks[i] :: blocks.drop (i + 1) :=
      List.drop_eq_getElem_cons hi
    simp only [combineLoop, hb]
    rw [combineLoop_spec blocks n fuel (i + 1) _ (by omega), hdrop]
    by_cases hlast : i + 1 = blocks.length
    · have hd2 : blocks.drop (i + 1) = [] := List.drop_eq_nil_iff.mpr (by omega)
      rw [hd2, if_neg (by omega : ¬(i < blocks.length - 1 ∧ 0 < n))]
      simp [combinedTextSpec, String.append_assoc]
    · have hne : blocks.drop (i + 1) ≠ [] := by
        intro hx
        have := List.drop_eq_nil_iff.mp hx
        omega
      obtain ⟨r, rs, hr⟩ := List.exists_cons_of_ne_nil hne
      rw [hr]
      by_cases hn : 0 < n
      · rw [if_pos ⟨by omega, hn⟩]
        simp [combinedTextSpec, String.append_assoc]
      · rw [if_neg (by omega : ¬(i < blocks.length - 1 ∧ 0 < n))]
        have hn0 : n = 0 := by omega
        subst hn0
        have hbl : blankLines 0 = "" := rfl
        simp [combinedTextSpec, hbl, String.append_assoc]

/-- C7: the combined-text body places the literal `===== <title or file>
=====` separator line before each item's text, a newline after it, and
exactly `clamp(floor(spacing), 0, 20)` blank lines between consecutive
items — none after the last.  Concretely, three blocks with spacing 2 get
exactly two blank lines after the first and second block and none after
the third. -/
theorem claim7_combined_text_shape (blocks : List Block) (v : Int) :
    combineBlocks blocks (parseSpacingLines (some v)) =
      combinedTextSpec (max 0 (min 20 v)).toNat blocks ∧
    combineBlocks [⟨"A", "textA"⟩, ⟨"B", "textB"⟩, ⟨"C", "textC"⟩] 2 =
      "===== A =====\ntextA\n\n\n===== B =====\ntextB\n\n\n===== C =====\ntextC\n" := by
  constructor
  · have h := combineLoop_spec blocks (parseSpacingLines (some v)) blocks.length 0 ""
      (by omega)
    simp only [combineBlocks, parseSpacingLines]
    simp only [parseSpacingLines] at h
    rw [h]
    simp [List.drop_zero]
  · rfl

/-! ### Archive aggregation -/

/-- C8: in archive mode every batch of two or more items yields exactly
one entry per item, in input order: a successful `try` body contributes
its derived-filename entry, and an item whose processing throws
contributes the sibling `<basename>_error.txt` entry holding the error
message — the builder is total, so the archive always finalizes. -/
theorem claim8_archive_entries (env : ArchiveEnv) (files : List UploadedFile)
    (h2 : 2 ≤ files.length) :
    (archiveZipEntries env files).length = files.length ∧
    ∀ (i : Nat) (f : UploadedFile), files[i]? = some f →
      ((∀ m, archiveTryBody env f = .error m →
          (archiveZipEntries env files)[i]? =
            some (ArchiveEntry.mk (safeBaseName env f.originalname ++ "_error.txt")
                  (EntryData.text (m ++ "\n")))) ∧
       (∀ e, archiveTryBody env f = .ok e →
          (archiveZipEntries env files)[i]? = some e)) := by
  refine ⟨by simp [archiveZipEntries], ?_⟩
  intro i f hf
  constructor
  · intro m hm
    simp only [archiveZipEntries, List.getElem?_map, hf, Option.map_some']
    simp [archiveItemEntry, hm]
  · intro e he
    simp only [archiveZipEntries, List.getElem?_map, hf, Option.map_some']
    simp [archiveItemEntry, he]

theorem claim8_witness :
    (archiveZipEntries archiveOracleEnv archiveBatch).length = archiveBatch.length ∧
    (archiveZipEntries archiveOracleEnv archiveBatch)[1]? =
      some (ArchiveEntry.mk (safeBaseName archiveOracleEnv "b.pdf" ++ "_error.txt")
            (EntryData.text ("boom" ++ "\n"))) :=
  ⟨(claim8_archive_entries archiveOracleEnv archiveBatch (by decide)).1,
   ((claim8_archive_entries archiveOracleEnv archiveBatch (by decide)).2 1
      ⟨"b.pdf", "application/pdf", [2]⟩ rfl).1 "boom" rfl⟩
